import Mathlib

set_option maxRecDepth 2000

/-!
Verification of the fishing-log parsing core (`FishingLogParser`, `RecordCache`).

The Python source is embedded shallowly:
* strings are `List Char` (Python 3 strings are sequences of code points);
* the three compiled regular expressions (`HOOK_PATTERN`, `CAPTURE_PATTERN`,
  `LOST_PATTERN`) are embedded as explicit scanners that reproduce
  `re.search`'s leftmost-match and backtracking behaviour for these three
  concrete patterns;
* `float(...)` is embedded as an `Option ℚ` conversion (it is only ever
  applied to matches of `[\d.]+`, where Python accepts exactly the strings
  with at least one digit and at most one dot); a `ValueError` escaping a
  function is modelled with `Except Unit`;
* the mutable `hook_cache` dict becomes explicit state threaded through the
  parse loop, and the insertion-ordered `RecordCache.cache` dict becomes an
  insertion-ordered association list.
-/

namespace Fishing

/-- Whitespace characters removed by Python `str.strip()` (the ASCII subset;
no other whitespace occurs in the inputs considered here). -/
def isPySpace (c : Char) : Bool :=
  c = ' ' || c = '\t' || c = '\n' || c = '\x0d' || c = '\x0b' || c = '\x0c'

/-- Python `str.strip()`: drop leading and trailing whitespace. -/
def pyStrip (cs : List Char) : List Char :=
  ((cs.dropWhile isPySpace).reverse.dropWhile isPySpace).reverse

/-- Worker for `pySplitlines`: split on `\r\n`, `\r` or `\n`. -/
def splitGo (acc : List Char) : List Char → List (List Char)
  | [] => [acc.reverse]
  | '\x0d' :: '\n' :: rest => acc.reverse :: splitGo [] rest
  | '\x0d' :: rest => acc.reverse :: splitGo [] rest
  | '\n' :: rest => acc.reverse :: splitGo [] rest
  | c :: rest => splitGo (c :: acc) rest

/-- Python `str.splitlines()` as applied in `parse_text`.  It is only ever
applied to the output of `str.strip()`, which never ends with a line
terminator, so the split never has to swallow a trailing terminator. -/
def pySplitlines (cs : List Char) : List (List Char) :=
  match cs with
  | [] => []
  | c :: rest => splitGo [] (c :: rest)

/-- Split a string at the first occurrence of `needle`, returning the parts
before and after it (Python `line.split(needle, 1)` when `needle in line`;
`none` when `needle not in line`). -/
def splitFirst (needle : List Char) : List Char → Option (List Char × List Char)
  | [] => if needle.isEmpty then some ([], []) else none
  | c :: rest =>
    if needle.isPrefixOf (c :: rest) then some ([], (c :: rest).drop needle.length)
    else
      match splitFirst needle rest with
      | some (pre, post) => some (c :: pre, post)
      | none => none

/-- Python substring test `needle in hay`. -/
def containsTok (needle : List Char) : List Char → Bool
  | [] => needle.isEmpty
  | c :: rest => needle.isPrefixOf (c :: rest) || containsTok needle rest

/-- Match a literal at the current position, returning the remainder. -/
def stripLit? (lit cs : List Char) : Option (List Char) :=
  if lit.isPrefixOf cs then some (cs.drop lit.length) else none

/-- `re.search` position scan: try the position matcher `f` at every start
position, leftmost first. -/
def searchPos {α : Type} (f : List Char → Option α) : List Char → Option α
  | [] => f []
  | c :: rest =>
    match f (c :: rest) with
    | some a => some a
    | none => searchPos f rest

/-- Scan for a lazy `.*?` gap: try `f` at every position, leftmost first, but
a `.` cannot cross a newline, so the scan stops once a newline would have to
be consumed. -/
def searchNoNL {α : Type} (f : List Char → Option α) : List Char → Option α
  | [] => f []
  | c :: rest =>
    match f (c :: rest) with
    | some a => some a
    | none => if c = '\n' then none else searchNoNL f rest

/-- Character class `[\d.]`. -/
def isDigitDot (c : Char) : Bool := c.isDigit || c = '.'

/-- Numeric value of an ASCII digit (Python `int` on a digit). -/
def digitVal (c : Char) : Nat := c.toNat - 48

/-- Python `int` on a nonempty string of ASCII digits. -/
def natOfDigits (ds : List Char) : Nat := ds.foldl (fun a c => 10 * a + digitVal c) 0

/-- Python `float` applied to a match of `[\d.]+`: defined exactly when the
string has at least one digit and at most one dot, in which case the value is
the usual decimal reading.  `none` models the `ValueError` that `float`
raises otherwise. -/
def floatOfRun? (ds : List Char) : Option ℚ :=
  if ds.count '.' ≤ 1 && ds.any Char.isDigit then
    match splitFirst ['.'] ds with
    | none => some (natOfDigits ds)
    | some (ip, fp) => some ((natOfDigits ip : ℚ) + (natOfDigits fp : ℚ) / ((10 : ℚ) ^ fp.length))
  else none

/-- Match `([\d.]+)(u₁|u₂)` at the current position: a greedy nonempty run of
`[\d.]` followed by one of the unit literals (alternation tried left to
right).  Shortening the greedy run can never help, because no unit starts
with a character of the class, so this is exact for these patterns.  Returns
`((run, unit), remainder)`. -/
def weightUnitAt? (units : List (List Char)) (cs : List Char) :
    Option ((List Char × List Char) × List Char) :=
  let run := cs.takeWhile isDigitDot
  let rest := cs.drop run.length
  if run.isEmpty then none
  else units.findSome? fun u =>
    if u.isPrefixOf rest then some ((run, u), rest.drop u.length) else none

/-- Match `(.+?)】k` at the current position: the lazy group takes the
shortest nonempty newline-free span that is followed by `】` and a match of
the continuation `k`; on failure of `k` the lazy group grows past that `】`
and tries the next one, exactly as the backtracking engine does. -/
def lazyBody {β : Type} (k : List Char → Option β) :
    List Char → List Char → Option (List Char × β)
  | _, [] => none
  | acc, c :: rest =>
    if c = '\n' then none
    else
      match rest with
      | '】' :: rest2 =>
        (match k rest2 with
         | some b => some (acc ++ [c], b)
         | none => lazyBody k (acc ++ [c]) rest)
      | _ => lazyBody k (acc ++ [c]) rest

/-! Literal fragments of the three compiled patterns, byte for byte from the
source (note which colons and commas are fullwidth and which are ASCII). -/

def sepTok : List Char := " : ".data
def hookMarker : List Char := "鱼上钩了".data
def captureMarker : List Char := "捕获".data
def lostMarker : List Char := "鱼脱钩了".data
def hookLit : List Char := "鱼上钩了！鱼竿：".data
def hookMid : List Char := "，鱼信息:【".data
def captureLit : List Char := "捕获：鱼竿:".data
def captureMid : List Char := ",【".data
def lostLit : List Char := "鱼脱钩了！鱼竿：".data
def expLit : List Char := "总经验:".data
def costLit : List Char := "耗时:".data
def baitLit : List Char := "鱼饵:".data
def hookUnits : List (List Char) := ["kg".data, "g".data]
def captureUnits : List (List Char) := ["公斤".data, "克".data]

/-- Groups of a `HOOK_PATTERN` match:
`鱼上钩了！鱼竿：(\d)，鱼信息:【(.+?)】([\d.]+)(kg|g)`. -/
structure HookMatch where
  rodCh : Char
  fishRaw : List Char
  wval : List Char
  wunit : List Char
deriving Repr, DecidableEq

/-- Try `HOOK_PATTERN` at one start position. -/
def hookAt? (cs : List Char) : Option HookMatch :=
  match stripLit? hookLit cs with
  | none => none
  | some r1 =>
    match r1 with
    | d :: r2 =>
      if d.isDigit then
        match stripLit? hookMid r2 with
        | none => none
        | some r3 =>
          match lazyBody (weightUnitAt? hookUnits) [] r3 with
          | none => none
          | some (fish, (wu, _)) => some ⟨d, fish, wu.1, wu.2⟩
      else none
    | [] => none

/-- `HOOK_PATTERN.search`. -/
def searchHook (cs : List Char) : Option HookMatch := searchPos hookAt? cs

/-- Groups of a `LOST_PATTERN` match: `鱼脱钩了！鱼竿：(\d)`. -/
def lostAt? (cs : List Char) : Option Char :=
  match stripLit? lostLit cs with
  | none => none
  | some (d :: _) => if d.isDigit then some d else none
  | some [] => none

/-- `LOST_PATTERN.search`. -/
def searchLost (cs : List Char) : Option Char := searchPos lostAt? cs

/-- Groups of a `CAPTURE_PATTERN` match:
`捕获：鱼竿:(\d),【(.+?)】.*?([\d.]+)(公斤|克).*?总经验:(\d+).*?耗时:(\d+)秒.*?鱼饵:(.+)$`. -/
structure CaptureMatch where
  rodCh : Char
  fishRaw : List Char
  wval : List Char
  wunit : List Char
  expDigits : List Char
  costDigits : List Char
  baitRaw : List Char
deriving Repr, DecidableEq

/-- Match `(\d+)` after a literal. -/
def digitsRun? (cs : List Char) : Option (List Char × List Char) :=
  let run := cs.takeWhile Char.isDigit
  if run.isEmpty then none else some (run, cs.drop run.length)

/-- Match `总经验:(\d+)` at the current position. -/
def expAt? (cs : List Char) : Option (List Char × List Char) :=
  (stripLit? expLit cs).bind digitsRun?

/-- Match `耗时:(\d+)秒` at the current position (greedy digits must be
followed directly by `秒`). -/
def costAt? (cs : List Char) : Option (List Char × List Char) :=
  match stripLit? costLit cs with
  | none => none
  | some r =>
    match digitsRun? r with
    | none => none
    | some (run, rest) =>
      match rest with
      | '秒' :: rest2 => some (run, rest2)
      | _ => none

/-- Match `鱼饵:(.+)$` at the current position: the greedy newline-free group
must reach the end of the string (or leave exactly one final newline, which
`$` may sit in front of), and must be nonempty. -/
def baitAt? (cs : List Char) : Option (List Char) :=
  match stripLit? baitLit cs with
  | none => none
  | some rest =>
    if rest.isEmpty then none
    else if rest.contains '\n' then
      if rest.getLast? == some '\n' && !(rest.dropLast.contains '\n') && !rest.dropLast.isEmpty
      then some rest.dropLast else none
    else some rest

/-- Match the part of `CAPTURE_PATTERN` after the fish group's `】`:
`.*?([\d.]+)(公斤|克).*?总经验:(\d+).*?耗时:(\d+)秒.*?鱼饵:(.+)$`.
Each lazy gap retries later positions when the rest of the pattern fails,
which is exactly what the nested scans do. -/
def captureTail (cs : List Char) :
    Option ((List Char × List Char) × List Char × List Char × List Char) :=
  searchNoNL (fun cs1 =>
    match weightUnitAt? captureUnits cs1 with
    | none => none
    | some (wu, r1) =>
      searchNoNL (fun cs2 =>
        match expAt? cs2 with
        | none => none
        | some (e, r2) =>
          searchNoNL (fun cs3 =>
            match costAt? cs3 with
            | none => none
            | some (t, r3) =>
              searchNoNL (fun cs4 =>
                (baitAt? cs4).map (fun b => (wu, e, t, b))) r3) r2) r1) cs

/-- Try `CAPTURE_PATTERN` at one start position. -/
def captureAt? (cs : List Char) : Option CaptureMatch :=
  match stripLit? captureLit cs with
  | none => none
  | some r1 =>
    match r1 with
    | d :: r2 =>
      if d.isDigit then
        match stripLit? captureMid r2 with
        | none => none
        | some r3 =>
          match lazyBody captureTail [] r3 with
          | none => none
          | some (fish, (wu, e, t, b)) => some ⟨d, fish, wu.1, wu.2, e, t, b⟩
      else none
    | [] => none

/-- `CAPTURE_PATTERN.search`. -/
def searchCapture (cs : List Char) : Option CaptureMatch := searchPos captureAt? cs

/-! ## `parse_line_fast` -/

/-- The dictionary `parse_line_fast` returns for a recognized line (its
`"type"` key becomes the constructor). -/
inductive Parsed where
  | hook (time : String) (rod : Nat) (fish : String) (weight : ℚ)
  | capture (time : String) (rod : Nat) (fish : String) (weight : ℚ)
      (exp : Nat) (cost : String) (bait : String)
  | lost (time : String) (rod : Nat) (fish : String) (weight : ℚ)
deriving Repr, DecidableEq

/-- The rod slot of a parsed event (the `"rod"` dictionary entry). -/
def rodOf : Parsed → Nat
  | .hook _ r _ _ => r
  | .capture _ r _ _ _ _ _ => r
  | .lost _ r _ _ => r

/-- `FishingLogParser._parse_weight`: `float(value)` (which may raise,
modelled by `none`), divided by 1000 when the unit is `g` or `克`. -/
def _parse_weight (value unit : List Char) : Option ℚ :=
  (floatOfRun? value).map fun w =>
    if unit = "g".data ∨ unit = "克".data then w / 1000 else w

/-- Python `s[:10]`, applied to the fish-name group at extraction time. -/
def truncate10 (cs : List Char) : List Char := cs.take 10

/-- `FishingLogParser.parse_line_fast`.  `.ok none` is Python `None`
(Unrecognized); `.error ()` is an uncaught `ValueError` escaping the call
(there is no try/except in the source). -/
def parse_line_fast (line : List Char) : Except Unit (Option Parsed) :=
  match splitFirst sepTok line with
  | none => .ok none
  | some (before, content) =>
    let time := (pyStrip before).asString
    if containsTok hookMarker content then
      match searchHook content with
      | none => .ok none
      | some m =>
        match _parse_weight m.wval m.wunit with
        | none => .error ()
        | some w =>
          .ok (some (.hook time (digitVal m.rodCh) (truncate10 m.fishRaw).asString w))
    else if containsTok captureMarker content then
      match searchCapture content with
      | none => .ok none
      | some m =>
        match _parse_weight m.wval m.wunit with
        | none => .error ()
        | some w =>
          .ok (some (.capture time (digitVal m.rodCh) (truncate10 m.fishRaw).asString w
            (natOfDigits m.expDigits) ((m.costDigits ++ "秒".data).asString)
            m.baitRaw.asString))
    else if containsTok lostMarker content then
      match searchLost content with
      | none => .ok none
      | some d => .ok (some (.lost time (digitVal d) "？" 0))
    else .ok none

/-! ## `parse_text` -/

/-- The `FishingRecord` dataclass (weights as exact rationals). -/
structure FishingRecord where
  record_type : String
  time : String
  rod : Nat
  fish : String
  weight : ℚ
  exp : Nat := 0
  cost : String := ""
  bait : String := ""
deriving Repr, DecidableEq

/-- The fields of a hook dictionary that `parse_text` later reads back out
of `hook_cache` (the rod is the cache key). -/
structure HookData where
  time : String
  fish : String
  weight : ℚ
deriving Repr, DecidableEq

/-- The loop state of `parse_text`: the records accumulated so far and the
`hook_cache` dict (rod slot → pending hook). -/
structure ParseState where
  records : List FishingRecord
  hook_cache : Nat → Option HookData

/-- Loop body of `parse_text` for one recognized event. -/
def stepParsed (st : ParseState) : Parsed → ParseState
  | .hook t r f w =>
    { st with hook_cache := fun r' => if r' = r then some ⟨t, f, w⟩ else st.hook_cache r' }
  | .capture t r f w e c b =>
    { records := st.records ++ [⟨"capture", t, r, f, w, e, c, b⟩],
      hook_cache := fun r' => if r' = r then none else st.hook_cache r' }
  | .lost t r _ _ =>
    match st.hook_cache r with
    | some h =>
      { records := st.records ++ [⟨"lost", h.time, r, h.fish, h.weight, 0, "", "脱钩"⟩],
        hook_cache := fun r' => if r' = r then none else st.hook_cache r' }
    | none =>
      { records := st.records ++ [⟨"lost", t, r, "？", 0, 0, "", "脱钩"⟩],
        hook_cache := st.hook_cache }

/-- Process one line of the `parse_text` loop (an uncaught exception aborts
the whole call). -/
def processLine (st : ParseState) (line : List Char) : Except Unit ParseState :=
  match parse_line_fast line with
  | .error e => .error e
  | .ok none => .ok st
  | .ok (some p) => .ok (stepParsed st p)

/-- The `parse_text` loop over a list of lines. -/
def processLines (st : ParseState) : List (List Char) → Except Unit ParseState
  | [] => .ok st
  | l :: ls =>
    match processLine st l with
    | .error e => .error e
    | .ok st' => processLines st' ls

/-- The initial loop state: `records = []`, `hook_cache = {}`. -/
def initState : ParseState := ⟨[], fun _ => none⟩

/-- `FishingLogParser.parse_text`: strip the text, split it into lines, run
the loop, return the records. -/
def parse_text (text : String) : Except Unit (List FishingRecord) :=
  (processLines initState (pySplitlines (pyStrip text.data))).map (·.records)

/-- `FishingLogAnalyzer.analyze`'s input handling: the stripped input text is
rejected with a warning dialog (`none`) when empty, otherwise `parse_text`
runs on it. -/
def analyze (input : String) : Option (Except Unit (List FishingRecord)) :=
  let t := pyStrip input.data
  if t.isEmpty then none else some (parse_text t.asString)

/-! ## `RecordCache`

Python 3 dicts preserve insertion order; `next(iter(self.cache))` is the
first key in that order, and assigning to an existing key keeps its
position.  The dict is embedded as an insertion-ordered association list. -/

/-- `RecordCache`: `max_size` and the insertion-ordered `cache` dict. -/
structure RecordCache where
  max_size : Nat
  cache : List (String × List FishingRecord)
deriving Repr, DecidableEq

/-- `RecordCache.get`: `self.cache.get(key)` (a read; it does not touch the
dict, so it cannot influence eviction order). -/
def RecordCache.get (c : RecordCache) (k : String) : Option (List FishingRecord) :=
  (c.cache.find? fun p => p.1 == k).map (·.2)

/-- The eviction step of `RecordCache.set`: when `len(self.cache) >=
self.max_size`, delete the first entry in insertion order
(`next(iter(self.cache))`). -/
def dropIfFull (m : Nat) {α : Type} (l : List α) : List α :=
  if m ≤ l.length then l.drop 1 else l

/-- `RecordCache.set`: evict when at capacity, then `self.cache[key] =
records` either updates the key in place (keeping its position, as a Python
dict does) or appends it at the end. -/
def RecordCache.set (c : RecordCache) (k : String) (v : List FishingRecord) : RecordCache :=
  if (dropIfFull c.max_size c.cache).any (fun p => p.1 == k) then
    { c with cache := (dropIfFull c.max_size c.cache).map fun p => if p.1 == k then (k, v) else p }
  else
    { c with cache := dropIfFull c.max_size c.cache ++ [(k, v)] }

/-- A client operation on the cache. -/
inductive CacheOp where
  | set (k : String) (v : List FishingRecord)
  | get (k : String)
deriving Repr, DecidableEq

/-- Apply one operation to the cache state; `get` returns a value but leaves
the state untouched. -/
def CacheOp.apply (c : RecordCache) : CacheOp → RecordCache
  | .set k v => c.set k v
  | .get _ => c

/-- Run a sequence of operations from the freshly constructed cache. -/
def runOps (m : Nat) (ops : List CacheOp) : RecordCache :=
  ops.foldl CacheOp.apply ⟨m, []⟩

/-- Ghost instrumentation of `RecordCache.set` that records, instead of the
value, the index of the operation that inserted each key (kept unchanged
when an existing key is updated in place, exactly as a Python dict keeps the
key's position).  The stamp of an entry is therefore the time of the
oldest insertion of that key still in effect. -/
def setStamped (m : Nat) (s : List (String × Nat)) (i : Nat) (k : String) :
    List (String × Nat) :=
  if (dropIfFull m s).any (fun p => p.1 == k) then dropIfFull m s
  else dropIfFull m s ++ [(k, i)]

/-- One instrumented step (`get` leaves the state untouched). -/
def stampedStep (m : Nat) (s : List (String × Nat)) (i : Nat) : CacheOp → List (String × Nat)
  | .set k _ => setStamped m s i k
  | .get _ => s

/-- Run the instrumented cache, numbering operations from `i`. -/
def runStampedGo (m : Nat) (s : List (String × Nat)) (i : Nat) :
    List CacheOp → List (String × Nat)
  | [] => s
  | op :: ops => runStampedGo m (stampedStep m s i op) (i + 1) ops

/-- Run the instrumented cache from empty. -/
def runStamped (m : Nat) (ops : List CacheOp) : List (String × Nat) :=
  runStampedGo m [] 0 ops

/-- Stamps are strictly increasing along the list and below the op counter. -/
def StampOk (i : Nat) (s : List (String × Nat)) : Prop :=
  List.Chain' (fun a b => a.2 < b.2) s ∧ ∀ p ∈ s, p.2 < i

/-- The joint invariant of the real cache and its instrumented shadow. -/
def CacheInv (m : Nat) (c : RecordCache) (s : List (String × Nat)) (i : Nat) : Prop :=
  c.max_size = m ∧ c.cache.length ≤ m ∧ (c.cache.map Prod.fst).Nodup
    ∧ c.cache.map Prod.fst = s.map Prod.fst ∧ StampOk i s

/-- A hook line whose rod-slot digit is the given character (used to show no
particular digit range is hard-coded). -/
def hookLineDigit (d : Char) : List Char :=
  "10:00 : 鱼上钩了！鱼竿：".data ++ d :: "，鱼信息:【鲤鱼】2.5kg".data

/-! ## General lemmas about the parse loop -/

theorem processLines_append (st : ParseState) (xs ys : List (List Char)) :
    processLines st (xs ++ ys) =
      match processLines st xs with
      | .error e => .error e
      | .ok st' => processLines st' ys := by
  induction xs generalizing st with
  | nil => simp [processLines]
  | cons l ls ih =>
    simp only [List.cons_append, processLines]
    cases processLine st l with
    | error e => rfl
    | ok st' => exact ih st'

theorem stepParsed_records (st : ParseState) (p : Parsed) :
    ∃ ex, (stepParsed st p).records = st.records ++ ex := by
  cases p with
  | hook t r f w => exact ⟨[], by simp [stepParsed]⟩
  | capture t r f w e c b => exact ⟨_, rfl⟩
  | lost t r f w =>
    cases h : st.hook_cache r with
    | some hd =>
      refine ⟨[⟨"lost", hd.time, r, hd.fish, hd.weight, 0, "", "脱钩"⟩], ?_⟩
      simp [stepParsed, h]
    | none =>
      refine ⟨[⟨"lost", t, r, "？", 0, 0, "", "脱钩"⟩], ?_⟩
      simp [stepParsed, h]

theorem processLine_records (st st' : ParseState) (l : List Char)
    (h : processLine st l = .ok st') : ∃ ex, st'.records = st.records ++ ex := by
  unfold processLine at h
  cases hp : parse_line_fast l with
  | error e => rw [hp] at h; cases h
  | ok o =>
    rw [hp] at h
    cases o with
    | none => cases h; exact ⟨[], by simp⟩
    | some p => cases h; exact stepParsed_records st p

theorem processLines_records (ls : List (List Char)) (st st' : ParseState)
    (h : processLines st ls = .ok st') : ∃ ex, st'.records = st.records ++ ex := by
  induction ls generalizing st with
  | nil => simp only [processLines] at h; cases h; exact ⟨[], by simp⟩
  | cons l ls ih =>
    simp only [processLines] at h
    cases hl : processLine st l with
    | error e => rw [hl] at h; cases h
    | ok st1 =>
      rw [hl] at h
      obtain ⟨ex1, he1⟩ := processLine_records st st1 l hl
      obtain ⟨ex2, he2⟩ := ih st1 h
      exact ⟨ex1 ++ ex2, by rw [he2, he1, List.append_assoc]⟩

theorem stepParsed_cache_other (st : ParseState) (p : Parsed) (r : Nat)
    (h : rodOf p ≠ r) : (stepParsed st p).hook_cache r = st.hook_cache r := by
  have hr : r ≠ rodOf p := fun hh => h hh.symm
  cases p with
  | hook t r0 f w => simp only [rodOf] at hr; simp [stepParsed, if_neg hr]
  | capture t r0 f w e c b => simp only [rodOf] at hr; simp [stepParsed, if_neg hr]
  | lost t r0 f w =>
    simp only [rodOf] at hr
    cases hc : st.hook_cache r0 with
    | some hd => simp [stepParsed, hc, if_neg hr]
    | none => simp [stepParsed, hc]

theorem processLine_cache_other (st st' : ParseState) (l : List Char) (r : Nat)
    (hr : ∀ p, parse_line_fast l = .ok (some p) → rodOf p ≠ r)
    (h : processLine st l = .ok st') : st'.hook_cache r = st.hook_cache r := by
  unfold processLine at h
  cases hp : parse_line_fast l with
  | error e => rw [hp] at h; cases h
  | ok o =>
    rw [hp] at h
    cases o with
    | none => cases h; rfl
    | some p => cases h; exact stepParsed_cache_other st p r (hr p hp)

theorem processLines_cache_other (ls : List (List Char)) (st st' : ParseState) (r : Nat)
    (hr : ∀ l ∈ ls, ∀ p, parse_line_fast l = .ok (some p) → rodOf p ≠ r)
    (h : processLines st ls = .ok st') : st'.hook_cache r = st.hook_cache r := by
  induction ls generalizing st with
  | nil => simp only [processLines] at h; cases h; rfl
  | cons l ls ih =>
    simp only [processLines] at h
    cases hl : processLine st l with
    | error e => rw [hl] at h; cases h
    | ok st1 =>
      rw [hl] at h
      have h1 : st1.hook_cache r = st.hook_cache r :=
        processLine_cache_other st st1 l r (hr l (List.mem_cons_self _ _)) hl
      have h2 : st'.hook_cache r = st1.hook_cache r :=
        ih st1 (fun l' hl' p hp => hr l' (List.mem_cons_of_mem _ hl') p hp) h
      rw [h2, h1]

/-! ## Evaluation helpers

`Rat` arithmetic does not reduce under the elaborator's default
transparency, so concrete runs of the parser are first stated with the
weight in the very shape the parser computes it (provable by `rfl`), and
that shape is then rewritten to the normalized rational by `norm_num`. -/

theorem hook_weight_25 : ((2 : ℚ) + (5 : ℚ) / (10 : ℚ) ^ 1) = 5 / 2 := by norm_num

theorem capture_weight_2500g : (2500 : ℚ) / 1000 = 5 / 2 := by norm_num

theorem parse_hook_e2e :
    parse_line_fast "10:00 : 鱼上钩了！鱼竿：1，鱼信息:【鲤鱼】2.5kg".data
      = .ok (some (.hook "10:00" 1 "鲤鱼" (5 / 2))) := by
  rw [← hook_weight_25]; rfl

theorem parse_capture_e2e :
    parse_line_fast "10:01 : 捕获：鱼竿:1,【鲤鱼】2500克,总经验:100,耗时:30秒,鱼饵:蚯蚓".data
      = .ok (some (.capture "10:01" 1 "鲤鱼" (5 / 2) 100 "30秒" "蚯蚓")) := by
  rw [← capture_weight_2500g]; rfl

/-! ## Claims -/

/-- C1 (code bug): the spec requires a numeric field that fails to convert
despite a grammar match to be treated as Unrecognized, with no line ever
aborting the pass; but `parse_line_fast` has no try/except, so on the line
`10:00 : 鱼上钩了！鱼竿：1，鱼信息:【鲤鱼】1.2.3kg` the weight `1.2.3`
matches `[\d.]+`, `float("1.2.3")` raises `ValueError`, and the whole
`parse_text` pass aborts. -/
theorem c1_uncaught_valueerror_aborts_pass :
    parse_line_fast "10:00 : 鱼上钩了！鱼竿：1，鱼信息:【鲤鱼】1.2.3kg".data = .error ()
    ∧ parse_text "10:00 : 鱼上钩了！鱼竿：1，鱼信息:【鲤鱼】1.2.3kg" = .error () :=
  ⟨rfl, rfl⟩

/-- C3: a recognized capture line always appends exactly one Capture record,
built from the capture event's own fields whatever the pending-hook state
is; a recognized hook line appends no record; and the spec's two-line
end-to-end input yields exactly the one expected Capture record. -/
theorem c3_capture_own_fields :
    (∀ (st : ParseState) (line : List Char) (t : String) (r : Nat) (f : String)
        (w : ℚ) (e : Nat) (c b : String),
        parse_line_fast line = .ok (some (.capture t r f w e c b)) →
        processLine st line =
          .ok ⟨st.records ++ [⟨"capture", t, r, f, w, e, c, b⟩],
               fun r' => if r' = r then none else st.hook_cache r'⟩)
    ∧ (∀ (st : ParseState) (line : List Char) (t : String) (r : Nat) (f : String) (w : ℚ),
        parse_line_fast line = .ok (some (.hook t r f w)) →
        processLine st line =
          .ok ⟨st.records, fun r' => if r' = r then some ⟨t, f, w⟩ else st.hook_cache r'⟩)
    ∧ parse_text
        "10:00 : 鱼上钩了！鱼竿：1，鱼信息:【鲤鱼】2.5kg\n10:01 : 捕获：鱼竿:1,【鲤鱼】2500克,总经验:100,耗时:30秒,鱼饵:蚯蚓"
        = .ok [⟨"capture", "10:01", 1, "鲤鱼", 5/2, 100, "30秒", "蚯蚓"⟩] := by
  refine ⟨?_, ?_, ?_⟩
  · intro st line t r f w e c b h
    simp [processLine, h, stepParsed]
  · intro st line t r f w h
    simp [processLine, h, stepParsed]
  · rw [← capture_weight_2500g]; rfl

/-- C3 witness: the end-to-end capture line appends its own record to the
empty state. -/
theorem c3_witness :
    processLine initState "10:01 : 捕获：鱼竿:1,【鲤鱼】2500克,总经验:100,耗时:30秒,鱼饵:蚯蚓".data =
      .ok ⟨[⟨"capture", "10:01", 1, "鲤鱼", 5/2, 100, "30秒", "蚯蚓"⟩],
           fun r' => if r' = 1 then none else initState.hook_cache r'⟩ :=
  c3_capture_own_fields.1 initState _ "10:01" 1 "鲤鱼" (5/2) 100 "30秒" "蚯蚓"
    parse_capture_e2e

/-- C5 counterexample: a hook line that is well-formed except that its rod
slot has two digits is not accepted by the classifier (the claim says it is
still accepted with the multi-digit value reported verbatim); `HOOK_PATTERN`
demands a single digit before the fullwidth comma, so the line is
Unrecognized. -/
theorem c5_counterexample :
    parse_line_fast "10:00 : 鱼上钩了！鱼竿：12，鱼信息:【鲤鱼】2.5kg".data = .ok none :=
  rfl

/-- C5 amended: the grammar accepts exactly one rod-slot digit.  Every
single digit 0–9 is accepted and reported verbatim (so no 1–5 range is
hard-coded), but a multi-digit slot is not an opaque integer key: a hook
line with slot `12` is Unrecognized, and a lost line with slot `12` matches
with only the first digit reported. -/
theorem c5_single_digit_slots :
    (∀ n : Fin 10, parse_line_fast (hookLineDigit (Char.ofNat (48 + n.val))) =
        .ok (some (.hook "10:00" n.val "鲤鱼" (5/2))))
    ∧ parse_line_fast "10:00 : 鱼上钩了！鱼竿：12，鱼信息:【鲤鱼】2.5kg".data = .ok none
    ∧ parse_line_fast "10:00 : 鱼脱钩了！鱼竿：12".data = .ok (some (.lost "10:00" 1 "？" 0)) := by
  refine ⟨?_, rfl, rfl⟩
  intro n
  fin_cases n <;> (rw [← hook_weight_25]; rfl)

/-- C5 witness: slot digit `3`, outside the observed 1–5 range or not, is
reported verbatim. -/
theorem c5_witness :
    parse_line_fast (hookLineDigit (Char.ofNat 51)) =
      .ok (some (.hook "10:00" 3 "鲤鱼" (5/2))) :=
  c5_single_digit_slots.1 ⟨3, by decide⟩

/-- C2 counterexample: a Lost line with no pending hook yields a record
whose fish name is the fullwidth question mark `？` (U+FF1F, taken from the
source's string literal), which is not the ASCII one-character string `?`
the claim specifies. -/
theorem c2_counterexample :
    parse_text "10:05 : 鱼脱钩了！鱼竿：2" =
      .ok [⟨"lost", "10:05", 2, "？", 0, 0, "", "脱钩"⟩]
    ∧ ("？" : String) ≠ "?" :=
  ⟨rfl, by decide⟩

/-- C2 amended: for every Lost line whose rod slot has no pending hook at
that point of the pass, `parse_text` emits a Lost record whose fish name is
the one-character fullwidth question mark `？` (U+FF1F) — not the ASCII
`?` — with weight 0 and the Lost line's own timestamp. -/
theorem c2_lost_without_hook (text : String) (pre post : List (List Char))
    (lostLine : List Char) (st : ParseState) (t f : String) (r : Nat) (wq : ℚ)
    (out : List FishingRecord)
    (hsplit : pySplitlines (pyStrip text.data) = pre ++ lostLine :: post)
    (hpre : processLines initState pre = .ok st)
    (hline : parse_line_fast lostLine = .ok (some (.lost t r f wq)))
    (hmiss : st.hook_cache r = none)
    (hout : parse_text text = .ok out) :
    ∃ ex, out = st.records ++ ⟨"lost", t, r, "？", 0, 0, "", "脱钩"⟩ :: ex := by
  unfold parse_text at hout
  rw [hsplit, show pre ++ lostLine :: post = (pre ++ [lostLine]) ++ post by simp,
    processLines_append, processLines_append, hpre] at hout
  have hstep : processLine st lostLine =
      .ok ⟨st.records ++ [⟨"lost", t, r, "？", 0, 0, "", "脱钩"⟩], st.hook_cache⟩ := by
    simp [processLine, hline, stepParsed, hmiss]
  simp only [processLines, hstep] at hout
  cases hpost : processLines
      ⟨st.records ++ [⟨"lost", t, r, "？", 0, 0, "", "脱钩"⟩], st.hook_cache⟩ post with
  | error e => rw [hpost] at hout; cases hout
  | ok final =>
    rw [hpost] at hout
    obtain ⟨ex, hex⟩ := processLines_records post _ final hpost
    simp only [Except.map, Except.ok.injEq] at hout
    exact ⟨ex, by rw [← hout, hex]; simp⟩

/-- C2 witness: a single Lost line with empty pending table produces exactly
the placeholder record. -/
theorem c2_witness :
    ∃ ex, [(⟨"lost", "10:05", 2, "？", 0, 0, "", "脱钩"⟩ : FishingRecord)] =
      ([] : List FishingRecord) ++ ⟨"lost", "10:05", 2, "？", 0, 0, "", "脱钩"⟩ :: ex :=
  c2_lost_without_hook "10:05 : 鱼脱钩了！鱼竿：2" [] [] "10:05 : 鱼脱钩了！鱼竿：2".data
    initState "10:05" "？" 2 0 [⟨"lost", "10:05", 2, "？", 0, 0, "", "脱钩"⟩]
    rfl rfl rfl rfl rfl

/-- C4: a valid Hook followed later by a valid Lost for the same rod, with
no recognized event for that rod in between, leaves the hook pending at the
Lost line and then emits exactly one Lost record carrying the hook's
timestamp, fish and weight, with bait `脱钩`, and removes the pending
entry. -/
theorem c4_hook_lost_pair (st st1 : ParseState) (hookLine lostLine : List Char)
    (mid : List (List Char)) (t f : String) (r : Nat) (w : ℚ)
    (t2 f2 : String) (w2 : ℚ)
    (hhook : parse_line_fast hookLine = .ok (some (.hook t r f w)))
    (hmid : ∀ l ∈ mid, ∀ p, parse_line_fast l = .ok (some p) → rodOf p ≠ r)
    (hlost : parse_line_fast lostLine = .ok (some (.lost t2 r f2 w2)))
    (hrun : processLines st (hookLine :: mid) = .ok st1) :
    st1.hook_cache r = some ⟨t, f, w⟩
    ∧ processLines st (hookLine :: mid ++ [lostLine]) =
        .ok ⟨st1.records ++ [⟨"lost", t, r, f, w, 0, "", "脱钩"⟩],
             fun r' => if r' = r then none else st1.hook_cache r'⟩ := by
  have hstep : processLine st hookLine = .ok (stepParsed st (.hook t r f w)) := by
    simp [processLine, hhook]
  simp only [processLines, hstep] at hrun
  have hcache : st1.hook_cache r = some ⟨t, f, w⟩ := by
    rw [processLines_cache_other mid _ st1 r hmid hrun]
    simp [stepParsed]
  refine ⟨hcache, ?_⟩
  rw [show hookLine :: mid ++ [lostLine] = (hookLine :: mid) ++ [lostLine] by simp,
    processLines_append]
  simp only [processLines, hstep, hrun]
  simp [processLine, hlost, stepParsed, hcache]

/-- C4 witness: hook on rod 1 then a lost on rod 1 with nothing in
between. -/
theorem c4_witness :
    (if (1 : Nat) = 1 then some (⟨"10:00", "鲤鱼", (5/2 : ℚ)⟩ : HookData) else none) =
      some (⟨"10:00", "鲤鱼", (5/2 : ℚ)⟩ : HookData)
    ∧ processLines initState
        ["10:00 : 鱼上钩了！鱼竿：1，鱼信息:【鲤鱼】2.5kg".data,
         "10:05 : 鱼脱钩了！鱼竿：1".data] =
      .ok ⟨[⟨"lost", "10:00", 1, "鲤鱼", 5/2, 0, "", "脱钩"⟩],
           fun r' => if r' = 1 then none
             else if r' = 1 then some (⟨"10:00", "鲤鱼", (5/2 : ℚ)⟩ : HookData) else none⟩ :=
  c4_hook_lost_pair initState
    ⟨[], fun r' => if r' = 1 then some ⟨"10:00", "鲤鱼", (5/2 : ℚ)⟩ else none⟩
    "10:00 : 鱼上钩了！鱼竿：1，鱼信息:【鲤鱼】2.5kg".data
    "10:05 : 鱼脱钩了！鱼竿：1".data [] "10:00" "鲤鱼" 1 (5/2) "10:05" "？" 0
    parse_hook_e2e (by simp) rfl (by rw [← hook_weight_25]; rfl)

/-- C6: a second Hook for a rod that already has a pending hook silently
overwrites it: processing the second hook and then a Lost for that rod
appends exactly one record over the two lines, built from the second hook's
time, fish and weight (the first hook's data appears in no record), and
clears the pending entry. -/
theorem c6_second_hook_overwrites (st : ParseState) (hookLine2 lostLine : List Char)
    (t1 f1 : String) (w1 : ℚ) (t2 f2 : String) (r : Nat) (w2 : ℚ)
    (t3 f3 : String) (w3 : ℚ)
    (hpend : st.hook_cache r = some ⟨t1, f1, w1⟩)
    (hhook2 : parse_line_fast hookLine2 = .ok (some (.hook t2 r f2 w2)))
    (hlost : parse_line_fast lostLine = .ok (some (.lost t3 r f3 w3))) :
    processLines st [hookLine2, lostLine] =
      .ok ⟨st.records ++ [⟨"lost", t2, r, f2, w2, 0, "", "脱钩"⟩],
           fun r' => if r' = r then none else st.hook_cache r'⟩ := by
  simp only [processLines, processLine, hhook2, hlost, stepParsed]
  refine congrArg Except.ok ?_
  refine congrArg (ParseState.mk _) ?_
  funext r'
  by_cases h : r' = r <;> simp [h]

/-- C6 witness: a pending hook on rod 1 is overwritten by a second hook and
the lost record reflects only the second hook. -/
theorem c6_witness :
    processLines ⟨[], fun r' => if r' = 1 then some ⟨"09:00", "草鱼", (1 : ℚ)⟩ else none⟩
      ["10:00 : 鱼上钩了！鱼竿：1，鱼信息:【鲤鱼】2.5kg".data,
       "10:05 : 鱼脱钩了！鱼竿：1".data] =
    .ok ⟨[⟨"lost", "10:00", 1, "鲤鱼", 5/2, 0, "", "脱钩"⟩],
         fun r' => if r' = 1 then none
           else if r' = 1 then some (⟨"09:00", "草鱼", (1 : ℚ)⟩ : HookData) else none⟩ :=
  c6_second_hook_overwrites
    ⟨[], fun r' => if r' = 1 then some ⟨"09:00", "草鱼", (1 : ℚ)⟩ else none⟩
    "10:00 : 鱼上钩了！鱼竿：1，鱼信息:【鲤鱼】2.5kg".data
    "10:05 : 鱼脱钩了！鱼竿：1".data
    "09:00" "草鱼" 1 "10:00" "鲤鱼" 1 (5/2) "10:05" "？" 0
    rfl parse_hook_e2e rfl

/-- C7: weight normalization is exact over the rationals: a gram unit
(`g` or `克`) divides the converted value by 1000, a kilogram unit (`kg` or
`公斤`) passes it through unchanged; `500` with unit `g` is exactly 1/2 kg
and `1.2` with unit `kg` is exactly 6/5 kg, also end to end through the
classifier. -/
theorem c7_weight_normalization :
    (∀ (v : List Char) (w : ℚ), floatOfRun? v = some w →
        _parse_weight v "g".data = some (w / 1000)
        ∧ _parse_weight v "克".data = some (w / 1000)
        ∧ _parse_weight v "kg".data = some w
        ∧ _parse_weight v "公斤".data = some w)
    ∧ _parse_weight "500".data "g".data = some (1 / 2)
    ∧ _parse_weight "1.2".data "kg".data = some (6 / 5)
    ∧ parse_line_fast "11:00 : 鱼上钩了！鱼竿：2，鱼信息:【鲈鱼】500g".data
        = .ok (some (.hook "11:00" 2 "鲈鱼" (1 / 2)))
    ∧ parse_line_fast "11:01 : 鱼上钩了！鱼竿：2，鱼信息:【鲈鱼】1.2kg".data
        = .ok (some (.hook "11:01" 2 "鲈鱼" (6 / 5))) := by
  have h500 : (500 : ℚ) / 1000 = 1 / 2 := by norm_num
  have h12 : ((1 : ℚ) + (2 : ℚ) / (10 : ℚ) ^ 1) = 6 / 5 := by norm_num
  refine ⟨?_, ?_, ?_, ?_, ?_⟩
  · intro v w h
    refine ⟨?_, ?_, ?_, ?_⟩ <;> simp only [_parse_weight, h, Option.map_some']
    · simp
    · simp
    · rw [if_neg (by decide)]
    · rw [if_neg (by decide)]
  · rw [← h500]; rfl
  · rw [← h12]; rfl
  · rw [← h500]; rfl
  · rw [← h12]; rfl

/-- C7 witness: the gram branch at the concrete value 5/2. -/
theorem c7_witness :
    _parse_weight "2.5".data "克".data = some ((5 / 2 : ℚ) / 1000) :=
  (c7_weight_normalization.1 "2.5".data (5 / 2) (by rw [← hook_weight_25]; rfl)).2.1

/-- Every hook event's fish name is the 10-character truncation of the raw
matched group. -/
theorem parse_hook_fish (line : List Char) (t : String) (r : Nat) (f : String) (w : ℚ)
    (h : parse_line_fast line = .ok (some (.hook t r f w))) :
    ∃ raw : List Char, f = (truncate10 raw).asString := by
  unfold parse_line_fast at h
  cases hs : splitFirst sepTok line with
  | none => rw [hs] at h; cases h
  | some pc =>
    obtain ⟨before, content⟩ := pc
    rw [hs] at h
    simp only at h
    by_cases hc : containsTok hookMarker content = true
    · rw [if_pos hc] at h
      cases hm : searchHook content with
      | none => rw [hm] at h; cases h
      | some m =>
        simp only [hm] at h
        cases hw : _parse_weight m.wval m.wunit with
        | none => simp only [hw] at h; exact Except.noConfusion h
        | some w' =>
          simp only [hw, Except.ok.injEq, Option.some.injEq, Parsed.hook.injEq] at h
          exact ⟨m.fishRaw, h.2.2.1.symm⟩
    · rw [if_neg hc] at h
      by_cases hc2 : containsTok captureMarker content = true
      · rw [if_pos hc2] at h
        cases hm : searchCapture content with
        | none => rw [hm] at h; cases h
        | some m =>
          simp only [hm] at h
          cases hw : _parse_weight m.wval m.wunit with
          | none => simp only [hw] at h; exact Except.noConfusion h
          | some w' => simp only [hw] at h; simp at h
      · rw [if_neg hc2] at h
        by_cases hc3 : containsTok lostMarker content = true
        · rw [if_pos hc3] at h
          cases hm : searchLost content with
          | none => rw [hm] at h; cases h
          | some d => simp only [hm] at h; simp at h
        · rw [if_neg hc3] at h; cases h

/-- Every capture event's fish name is the 10-character truncation of the
raw matched group. -/
theorem parse_capture_fish (line : List Char) (t : String) (r : Nat) (f : String)
    (w : ℚ) (e : Nat) (c b : String)
    (h : parse_line_fast line = .ok (some (.capture t r f w e c b))) :
    ∃ raw : List Char, f = (truncate10 raw).asString := by
  unfold parse_line_fast at h
  cases hs : splitFirst sepTok line with
  | none => rw [hs] at h; cases h
  | some pc =>
    obtain ⟨before, content⟩ := pc
    rw [hs] at h
    simp only at h
    by_cases hc : containsTok hookMarker content = true
    · rw [if_pos hc] at h
      cases hm : searchHook content with
      | none => rw [hm] at h; cases h
      | some m =>
        simp only [hm] at h
        cases hw : _parse_weight m.wval m.wunit with
        | none => simp only [hw] at h; exact Except.noConfusion h
        | some w' => simp only [hw] at h; simp at h
    · rw [if_neg hc] at h
      by_cases hc2 : containsTok captureMarker content = true
      · rw [if_pos hc2] at h
        cases hm : searchCapture content with
        | none => rw [hm] at h; cases h
        | some m =>
          simp only [hm] at h
          cases hw : _parse_weight m.wval m.wunit with
          | none => simp only [hw] at h; exact Except.noConfusion h
          | some w' =>
            simp only [hw, Except.ok.injEq, Option.some.injEq, Parsed.capture.injEq] at h
            exact ⟨m.fishRaw, h.2.2.1.symm⟩
      · rw [if_neg hc2] at h
        by_cases hc3 : containsTok lostMarker content = true
        · rw [if_pos hc3] at h
          cases hm : searchLost content with
          | none => rw [hm] at h; cases h
          | some d => simp only [hm] at h; simp at h
        · rw [if_neg hc3] at h; cases h

/-- C8: every classified hook or capture event carries a fish name that is
the truncation of the raw matched name to its first 10 characters, where
characters are code points (`List Char`), not bytes; truncation leaves a
name of at most 10 characters unchanged and cuts a name of 11 or more to
exactly its first 10, as the 11-character concrete example shows. -/
theorem c8_fish_truncation :
    (∀ (line : List Char) (t : String) (r : Nat) (f : String) (w : ℚ),
        parse_line_fast line = .ok (some (.hook t r f w)) →
        ∃ raw : List Char, f = (truncate10 raw).asString)
    ∧ (∀ (line : List Char) (t : String) (r : Nat) (f : String) (w : ℚ)
        (e : Nat) (c b : String),
        parse_line_fast line = .ok (some (.capture t r f w e c b)) →
        ∃ raw : List Char, f = (truncate10 raw).asString)
    ∧ (∀ cs : List Char, cs.length ≤ 10 → truncate10 cs = cs)
    ∧ (∀ cs : List Char, 11 ≤ cs.length →
        truncate10 cs = cs.take 10 ∧ (truncate10 cs).length = 10)
    ∧ parse_line_fast "10:00 : 鱼上钩了！鱼竿：1，鱼信息:【一二三四五六七八九十口】2.5kg".data
        = .ok (some (.hook "10:00" 1 "一二三四五六七八九十" (5 / 2))) := by
  refine ⟨parse_hook_fish, parse_capture_fish, ?_, ?_, ?_⟩
  · intro cs hlen
    exact List.take_of_length_le hlen
  · intro cs hlen
    refine ⟨rfl, ?_⟩
    rw [truncate10, List.length_take]
    omega
  · rw [← hook_weight_25]; rfl

/-- C8 witness: the end-to-end hook line's fish name is a truncation of its
raw matched group. -/
theorem c8_witness : ∃ raw : List Char, "鲤鱼" = (truncate10 raw).asString :=
  c8_fish_truncation.1 _ "10:00" 1 "鲤鱼" (5 / 2) parse_hook_e2e

/-! ## `RecordCache` lemmas -/

theorem map_fst_dropIfFull {β : Type} (m : Nat) (l : List (String × β)) :
    (dropIfFull m l).map Prod.fst = dropIfFull m (l.map Prod.fst) := by
  unfold dropIfFull
  rw [List.length_map]
  split <;> simp [List.map_drop]

theorem dropIfFull_length {α : Type} (m : Nat) (hm : 1 ≤ m) (l : List α)
    (h : l.length ≤ m) : (dropIfFull m l).length ≤ m - 1 := by
  unfold dropIfFull
  split
  next hc => rw [List.length_drop]; omega
  next hc => omega

theorem any_key_eq {β γ : Type} (l : List (String × β)) (l' : List (String × γ))
    (k : String) (h : l.map Prod.fst = l'.map Prod.fst) :
    l.any (fun p => p.1 == k) = l'.any (fun p => p.1 == k) := by
  have aux : ∀ {δ : Type} (t : List (String × δ)),
      t.any (fun p => p.1 == k) = (t.map Prod.fst).any (fun x => x == k) := by
    intro δ t
    induction t with
    | nil => rfl
    | cons a t ih => simp [ih]
  rw [aux l, aux l', h]

theorem map_fst_update (l : List (String × List FishingRecord)) (k : String)
    (v : List FishingRecord) :
    (l.map fun p => if p.1 == k then (k, v) else p).map Prod.fst = l.map Prod.fst := by
  rw [List.map_map]
  refine List.map_congr_left fun p _ => ?_
  simp only [Function.comp_apply]
  by_cases h : p.1 = k
  · subst h; simp
  · simp [h]

theorem set_max (c : RecordCache) (k : String) (v : List FishingRecord) :
    (c.set k v).max_size = c.max_size := by
  unfold RecordCache.set
  split <;> rfl

theorem set_keys_sim (m : Nat) (c : RecordCache) (s : List (String × Nat)) (i : Nat)
    (k : String) (v : List FishingRecord) (hmax : c.max_size = m)
    (hkeys : c.cache.map Prod.fst = s.map Prod.fst) :
    (c.set k v).cache.map Prod.fst = (setStamped m s i k).map Prod.fst := by
  have hbase : (dropIfFull m c.cache).map Prod.fst = (dropIfFull m s).map Prod.fst := by
    rw [map_fst_dropIfFull, map_fst_dropIfFull, hkeys]
  have hany : (dropIfFull m c.cache).any (fun p => p.1 == k)
      = (dropIfFull m s).any (fun p => p.1 == k) := any_key_eq _ _ k hbase
  unfold RecordCache.set setStamped
  rw [hmax, hany]
  by_cases hc : (dropIfFull m s).any (fun p => p.1 == k) = true
  · rw [if_pos hc, if_pos hc]
    rw [map_fst_update]
    exact hbase
  · rw [if_neg hc, if_neg hc]
    simp [hbase]

theorem set_length_le (m : Nat) (hm : 1 ≤ m) (c : RecordCache) (k : String)
    (v : List FishingRecord) (hmax : c.max_size = m) (hlen : c.cache.length ≤ m) :
    (c.set k v).cache.length ≤ m := by
  have hb := dropIfFull_length m hm c.cache hlen
  unfold RecordCache.set
  rw [hmax]
  split
  · simpa using le_trans (by simpa using hb) (Nat.sub_le m 1)
  · simp only [List.length_append, List.length_singleton]
    omega

theorem not_mem_keys_of_any_eq_false (l : List (String × List FishingRecord))
    (k : String) (h : l.any (fun p => p.1 == k) = false) :
    k ∉ l.map Prod.fst := by
  intro hmem
  obtain ⟨p, hp, hpk⟩ := List.mem_map.mp hmem
  have := List.any_eq_false.mp h p hp
  simp [hpk] at this

theorem set_nodup (m : Nat) (c : RecordCache) (k : String) (v : List FishingRecord)
    (hmax : c.max_size = m) (h : (c.cache.map Prod.fst).Nodup) :
    ((c.set k v).cache.map Prod.fst).Nodup := by
  have hbase : ((dropIfFull m c.cache).map Prod.fst).Nodup := by
    rw [map_fst_dropIfFull]
    unfold dropIfFull
    split
    · exact h.sublist (List.drop_sublist 1 _)
    · exact h
  unfold RecordCache.set
  rw [hmax]
  split
  · rwa [map_fst_update]
  · rename_i hany
    rw [List.map_append]
    refine List.nodup_append.mpr ⟨hbase, by simp, ?_⟩
    intro a ha hb
    simp only [List.map_cons, List.map_nil, List.mem_singleton] at hb
    rw [hb] at ha
    exact not_mem_keys_of_any_eq_false _ k (Bool.eq_false_iff.mpr hany) ha

theorem setStamped_stampok (m i : Nat) (k : String) (s : List (String × Nat))
    (h : StampOk i s) : StampOk (i + 1) (setStamped m s i k) := by
  obtain ⟨hchain, hbound⟩ := h
  have hbchain : List.Chain' (fun a b => a.2 < b.2) (dropIfFull m s) := by
    unfold dropIfFull; split
    · exact hchain.drop 1
    · exact hchain
  have hbmem : ∀ p ∈ dropIfFull m s, p ∈ s := by
    unfold dropIfFull; split
    · exact fun p hp => (List.drop_sublist 1 s).mem hp
    · exact fun p hp => hp
  unfold setStamped
  split
  · exact ⟨hbchain, fun p hp => Nat.lt_succ_of_lt (hbound p (hbmem p hp))⟩
  · refine ⟨hbchain.append (List.chain'_singleton _) ?_, ?_⟩
    · intro x hx y hy
      simp only [List.head?_cons, Option.mem_def, Option.some.injEq] at hy
      subst hy
      exact hbound x (hbmem x (List.mem_of_mem_getLast? hx))
    · intro p hp
      rcases List.mem_append.mp hp with h1 | h1
      · exact Nat.lt_succ_of_lt (hbound p (hbmem p h1))
      · simp only [List.mem_singleton] at h1
        subst h1
        exact Nat.lt_succ_self i

theorem cacheinv_step (m : Nat) (hm : 1 ≤ m) (c : RecordCache)
    (s : List (String × Nat)) (i : Nat) (op : CacheOp)
    (h : CacheInv m c s i) :
    CacheInv m (CacheOp.apply c op) (stampedStep m s i op) (i + 1) := by
  obtain ⟨hmax, hlen, hnodup, hkeys, hchain, hbound⟩ := h
  cases op with
  | get k =>
    exact ⟨hmax, hlen, hnodup, hkeys, hchain,
      fun p hp => Nat.lt_succ_of_lt (hbound p hp)⟩
  | set k v =>
    refine ⟨(set_max c k v).trans hmax, set_length_le m hm c k v hmax hlen,
      set_nodup m c k v hmax hnodup, set_keys_sim m c s i k v hmax hkeys,
      setStamped_stampok m i k s ⟨hchain, hbound⟩⟩

theorem cacheinv_run (m : Nat) (hm : 1 ≤ m) (ops : List CacheOp) (c : RecordCache)
    (s : List (String × Nat)) (i : Nat) (h : CacheInv m c s i) :
    CacheInv m (ops.foldl CacheOp.apply c) (runStampedGo m s i ops) (i + ops.length) := by
  induction ops generalizing c s i with
  | nil => simpa using h
  | cons op ops ih =>
    have h2 := ih (CacheOp.apply c op) (stampedStep m s i op) (i + 1)
      (cacheinv_step m hm c s i op h)
    simp only [List.foldl_cons, runStampedGo, List.length_cons]
    have : i + (ops.length + 1) = i + 1 + ops.length := by omega
    rw [this]
    exact h2

theorem cacheinv_init (m : Nat) : CacheInv m ⟨m, []⟩ [] 0 :=
  ⟨rfl, by simp, by simp, rfl, List.chain'_nil, by simp⟩

theorem runOps_inv (m : Nat) (hm : 1 ≤ m) (ops : List CacheOp) :
    CacheInv m (runOps m ops) (runStamped m ops) ops.length := by
  have := cacheinv_run m hm ops ⟨m, []⟩ [] 0 (cacheinv_init m)
  simpa [runOps, runStamped] using this

/-- C9: from a fresh cache with `max_size = m ≥ 1`, after any operation
sequence: the cache never holds more than `m` entries; `get` operations do
not change the state at all (so eviction order is FIFO, not LRU); the key
sequence of the cache equals that of the stamp-instrumented run, whose
stamps (op index of each key's insertion still in effect) are strictly
increasing along the list, so the first entry is the oldest-inserted key
still present; the first entry has the minimal stamp; and a `set` when the
cache is at capacity removes exactly that first entry's key (it can only
survive as the freshly set key itself). -/
theorem c9_cache_fifo_bounded (m : Nat) (ops : List CacheOp) (hm : 1 ≤ m) :
    (runOps m ops).cache.length ≤ m
    ∧ (∀ (pre post : List CacheOp) (k : String),
        runOps m (pre ++ CacheOp.get k :: post) = runOps m (pre ++ post))
    ∧ (runOps m ops).cache.map Prod.fst = (runStamped m ops).map Prod.fst
    ∧ List.Chain' (fun a b => a.2 < b.2) (runStamped m ops)
    ∧ (∀ e ∈ (runStamped m ops).head?, ∀ p ∈ (runStamped m ops).tail, e.2 < p.2)
    ∧ (∀ (k : String) (v : List FishingRecord) (hd : String × List FishingRecord),
        m ≤ (runOps m ops).cache.length →
        (runOps m ops).cache.head? = some hd →
        hd.1 ∉ (((runOps m ops).set k v).cache.map Prod.fst) ∨ hd.1 = k) := by
  obtain ⟨hmax, hlen, hnodup, hkeys, hchain, hbound⟩ := runOps_inv m hm ops
  refine ⟨hlen, ?_, hkeys, hchain, ?_, ?_⟩
  · intro pre post k
    simp [runOps, List.foldl_append, CacheOp.apply]
  · intro e he p hp
    cases hs : runStamped m ops with
    | nil => rw [hs] at he; cases he
    | cons a tl =>
      rw [hs] at he hp
      simp only [List.head?_cons, Option.mem_def, Option.some.injEq] at he
      subst he
      rw [hs] at hchain
      haveI : IsTrans (String × Nat) (fun a b => a.2 < b.2) :=
        ⟨fun _ _ _ h1 h2 => lt_trans h1 h2⟩
      have hpw := List.chain'_iff_pairwise.mp hchain
      exact (List.pairwise_cons.mp hpw).1 p hp
  · intro k v hd hfull hhead
    cases hcc : (runOps m ops).cache with
    | nil => rw [hcc] at hhead; cases hhead
    | cons e tl =>
      rw [hcc, List.head?_cons] at hhead
      injection hhead with hhe
      rw [← hhe]
      by_cases hk : e.1 = k
      · exact Or.inr hk
      · refine Or.inl ?_
        have hnd : e.1 ∉ tl.map Prod.fst := by
          rw [hcc, List.map_cons] at hnodup
          exact (List.nodup_cons.mp hnodup).1
        have hfull2 : m ≤ (e :: tl).length := hcc ▸ hfull
        have hbase : dropIfFull (runOps m ops).max_size (runOps m ops).cache = tl := by
          unfold dropIfFull
          rw [hmax, hcc, if_pos hfull2]
          rfl
        unfold RecordCache.set
        rw [hbase]
        split
        · rw [map_fst_update]
          exact hnd
        · rw [List.map_append]
          intro hmem
          rcases List.mem_append.mp hmem with h1 | h1
          · exact hnd h1
          · simp only [List.map_cons, List.map_nil, List.mem_singleton] at h1
            exact hk h1

/-- C9 witness: with capacity 1, setting `a` then `b` keeps one entry, and a
further set evicts the oldest key `b` (not the freshly set key `c`). -/
theorem c9_witness :
    (runOps 1 [CacheOp.set "a" [], CacheOp.set "b" []]).cache.length ≤ 1
    ∧ (("b" : String) ∉
        (((runOps 1 [CacheOp.set "a" [], CacheOp.set "b" []]).set "c" []).cache.map Prod.fst)
      ∨ ("b" : String) = "c") := by
  have h := c9_cache_fifo_bounded 1 [CacheOp.set "a" [], CacheOp.set "b" []] (by decide)
  exact ⟨h.1, h.2.2.2.2.2 "c" [] ("b", []) (by decide) (by decide)⟩

/-- C10: `parse_text` has no failure mode for empty input: on any
whitespace-only text (the empty text included) it returns the empty record
list without raising; the empty-input rejection lives only at the `analyze`
boundary, which refuses exactly the inputs whose stripped text is empty and
otherwise runs `parse_text`. -/
theorem c10_empty_input :
    (∀ text : String, (∀ c ∈ text.data, isPySpace c) → parse_text text = .ok [])
    ∧ (∀ text : String, analyze text = none ↔ pyStrip text.data = []) := by
  constructor
  · intro text hws
    have h1 : text.data.dropWhile isPySpace = [] := List.dropWhile_eq_nil_iff.mpr hws
    have h2 : pyStrip text.data = [] := by rw [pyStrip, h1]; rfl
    simp only [parse_text, h2]
    rfl
  · intro text
    cases hstrip : pyStrip text.data with
    | nil => simp [analyze, hstrip]
    | cons a l => simp [analyze, hstrip]

/-- C10 witness: the empty and a whitespace-only input. -/
theorem c10_witness : parse_text " \t " = .ok [] ∧ analyze "" = none :=
  ⟨c10_empty_input.1 " \t " (by decide), (c10_empty_input.2 "").mpr rfl⟩

end Fishing

